import Mathlib

/-!
Shallow embedding of the `fsconnectors` repository (ai-forever/fsconnectors),
covering the multipart S3 writer (`fsconnectors/utils/s3.py`,
`fsconnectors/utils/multipart.py`), the chunk plan and retry/progress logic of
the transfer engine (`fsconnectors/cli.py`, `fsconnectors/s3utils.py`), and the
path normalization helpers.  Python integers are modelled as `Nat`; the float
`math.ceil(a / float(b))` computations are modelled by exact ceiling division;
backend calls are modelled by their observable effect (the etag returned by
`upload_part`, the part list returned by `list_parts`).
-/

namespace Fsconnectors

/-- One element of `part_info['Parts']`: `{'PartNumber': ..., 'ETag': ...}`. -/
structure PartRecord where
  partNumber : Nat
  etag : String
deriving DecidableEq, Repr

/-- The mutable state of `MultipartWriter` / `AsyncMultipartWriter`:
`self._part_num` and `self._part_info['Parts']` (in append order). -/
structure WriterState where
  partNum : Nat
  parts : List PartRecord
deriving DecidableEq, Repr

/-- State right after `__enter__` / `open`: `_part_num = 0`, empty part list. -/
def initState : WriterState := ⟨0, []⟩

/-- `MultipartWriter.write(data, part_num=None)` (utils/s3.py lines 70-89,
utils/multipart.py lines 46-60): with `part_num=None` the auto counter is
incremented and used as the part number; with an explicit `part_num` in
`[1, 10000]` the counter is incremented but the caller's number is used;
otherwise a `ValueError` is raised.  The backend's `upload_part` response is
modelled by the `etag` argument; the data payload does not affect the state. -/
def write (s : WriterState) (partNumArg : Option Nat) (etag : String) :
    Except String WriterState :=
  match partNumArg with
  | none =>
      let p := s.partNum + 1
      .ok ⟨p, s.parts ++ [⟨p, etag⟩]⟩
  | some p =>
      if 1 ≤ p ∧ p ≤ 10000 then
        .ok ⟨s.partNum + 1, s.parts ++ [⟨p, etag⟩]⟩
      else
        .error "part_num must be an integer between 1 and 1000"

/-- Run a sequence of `write` calls, each given as `(part_num?, etag)`. -/
def runWrites (s : WriterState) : List (Option Nat × String) → Except String WriterState
  | [] => .ok s
  | (p, e) :: rest =>
      match write s p e with
      | .ok s' => runWrites s' rest
      | .error msg => .error msg

/-- `sorted(self._part_info['Parts'], key=lambda x: x['PartNumber'])`:
a stable sort by part number (Python's sort is stable; so is insertion sort). -/
def sortParts (l : List PartRecord) : List PartRecord :=
  l.insertionSort (fun a b => a.partNumber ≤ b.partNumber)

/-- The observable outcome of `close` / `__exit__` / `__aexit__`: either
`complete_multipart_upload` with the sorted manifest, or
`abort_multipart_upload` together with the loss percentage put in the
`RuntimeError` message. -/
inductive CloseAction where
  | finalize (manifest : List PartRecord)
  | abort (lossPercent : Nat)
deriving DecidableEq, Repr

/-- Whether the close issued `complete_multipart_upload`. -/
def CloseAction.isFinalize : CloseAction → Bool
  | .finalize _ => true
  | .abort _ => false

/-- Whether the close issued `abort_multipart_upload`. -/
def CloseAction.isAbort : CloseAction → Bool
  | .finalize _ => false
  | .abort _ => true

/-- `MultipartWriter.close` (utils/multipart.py lines 62-86), identical to
`MultipartWriter.__exit__` / `AsyncMultipartWriter.__aexit__`
(utils/s3.py lines 44-68 and 128-152): `list_parts` returns `uploadedParts`;
if `len(uploaded_parts) == self._part_num` the sorted manifest is passed to
`complete_multipart_upload`, else the upload is aborted and
`loss = int((part_num - len(uploaded_parts)) / part_num * 100)` is reported. -/
def close (s : WriterState) (uploadedParts : List PartRecord) : CloseAction :=
  if uploadedParts.length = s.partNum then
    .finalize (sortParts s.parts)
  else
    .abort ((s.partNum - uploadedParts.length) * 100 / s.partNum)

/-- `AsyncMultipartWriter.__aexit__(exc_type, exc_val, exc_tb)`
(utils/s3.py lines 128-152).  The three exception arguments are received but
the body never reads them; the body is the same reconciliation as `close`. -/
def aexit (excType excVal excTb : Option String) (s : WriterState)
    (uploadedParts : List PartRecord) : CloseAction :=
  if uploadedParts.length = s.partNum then
    .finalize (sortParts s.parts)
  else
    .abort ((s.partNum - uploadedParts.length) * 100 / s.partNum)

/-- A successful `write` advances `_part_num` by exactly one and appends
exactly one part record, whether or not `part_num` was supplied. -/
theorem write_ok_partNum {s : WriterState} {p : Option Nat} {e : String}
    {s' : WriterState} (h : write s p e = .ok s') :
    s'.partNum = s.partNum + 1 ∧ s'.parts.length = s.parts.length + 1 := by
  cases p with
  | none =>
      simp only [write] at h
      cases h
      simp
  | some n =>
      simp only [write] at h
      by_cases hn : 1 ≤ n ∧ n ≤ 10000
      · simp only [hn, if_pos] at h
        cases h
        simp
      · simp [hn] at h

/-- After a successful run of `n` writes, `_part_num` has advanced by `n`
and the part list has grown by `n`. -/
theorem runWrites_ok_partNum :
    ∀ (tr : List (Option Nat × String)) (s s' : WriterState),
      runWrites s tr = .ok s' →
      s'.partNum = s.partNum + tr.length ∧ s'.parts.length = s.parts.length + tr.length := by
  intro tr
  induction tr with
  | nil =>
      intro s s' h
      simp only [runWrites] at h
      cases h
      simp
  | cons pe rest ih =>
      intro s s' h
      obtain ⟨p, e⟩ := pe
      simp only [runWrites] at h
      cases hw : write s p e with
      | error msg => rw [hw] at h; exact absurd h (by simp)
      | ok s₁ =>
          rw [hw] at h
          obtain ⟨h1, h2⟩ := write_ok_partNum hw
          obtain ⟨h3, h4⟩ := ih s₁ s' h
          constructor
          · rw [h3, h1]; simp [List.length_cons]; omega
          · rw [h4, h2]; simp [List.length_cons]; omega

/-- The finalize branch of `close` is taken exactly when the acknowledged
part count equals `_part_num`. -/
theorem close_isFinalize_iff (s : WriterState) (up : List PartRecord) :
    (close s up).isFinalize = true ↔ up.length = s.partNum := by
  by_cases hc : up.length = s.partNum <;>
    simp [close, CloseAction.isFinalize, hc]

/-- The abort branch of `close` is taken exactly when the acknowledged
part count differs from `_part_num`. -/
theorem close_isAbort_iff (s : WriterState) (up : List PartRecord) :
    (close s up).isAbort = true ↔ up.length ≠ s.partNum := by
  by_cases hc : up.length = s.partNum <;>
    simp [close, CloseAction.isAbort, hc]

/-- C1: for every multipart session close, `complete_multipart_upload` is
issued iff the part count acknowledged by `list_parts` equals the number of
parts the session submitted (the number of successful `write` calls);
otherwise `abort_multipart_upload` is issued; finalize and abort are mutually
exclusive and exhaustive for every close. -/
theorem close_finalize_iff_ack_eq_submitted
    (tr : List (Option Nat × String)) (s : WriterState)
    (h : runWrites initState tr = .ok s) (uploadedParts : List PartRecord) :
    ((close s uploadedParts).isFinalize = true ↔ uploadedParts.length = tr.length) ∧
    ((close s uploadedParts).isAbort = true ↔ uploadedParts.length ≠ tr.length) ∧
    (close s uploadedParts).isFinalize = !(close s uploadedParts).isAbort := by
  have hp : s.partNum = tr.length := by
    have := (runWrites_ok_partNum tr initState s h).1
    simpa [initState] using this
  refine ⟨?_, ?_, ?_⟩
  · rw [close_isFinalize_iff, hp]
  · rw [close_isAbort_iff, hp]
  · cases hc : close s uploadedParts <;>
      simp [CloseAction.isFinalize, CloseAction.isAbort]

/-- Witness for C1: a session of two writes acknowledged with one part aborts. -/
theorem close_finalize_iff_ack_eq_submitted_witness :
    (close ⟨2, [⟨1, "a"⟩, ⟨2, "b"⟩]⟩ [⟨1, "a"⟩]).isAbort = true := by
  have h := close_finalize_iff_ack_eq_submitted [(none, "a"), (none, "b")]
    ⟨2, [⟨1, "a"⟩, ⟨2, "b"⟩]⟩ rfl [⟨1, "a"⟩]
  exact h.2.1.mpr (by decide)

instance : IsTotal PartRecord (fun a b => a.partNumber ≤ b.partNumber) :=
  ⟨fun a b => Nat.le_total a.partNumber b.partNumber⟩

instance : IsTrans PartRecord (fun a b => a.partNumber ≤ b.partNumber) :=
  ⟨fun _ _ _ => Nat.le_trans⟩

/-- `sortParts` permutes the part list. -/
theorem sortParts_perm (l : List PartRecord) : (sortParts l).Perm l :=
  List.perm_insertionSort _ l

/-- The part numbers of `sortParts l` are sorted in ascending order. -/
theorem sortParts_sorted (l : List PartRecord) :
    ((sortParts l).map PartRecord.partNumber).Sorted (· ≤ ·) := by
  have h := List.sorted_insertionSort (fun a b : PartRecord => a.partNumber ≤ b.partNumber) l
  exact (List.pairwise_map).mpr h

/-- C4: for every multipart session whose submitted part numbers form a
permutation of `1..n` (parts submitted in any order), the manifest passed to
`complete_multipart_upload` is sorted ascending by part number, i.e. its part
number sequence is exactly `1, 2, ..., n`. -/
theorem finalize_manifest_sorted
    (tr : List (Option Nat × String)) (s : WriterState) (n : Nat)
    (h : runWrites initState tr = .ok s)
    (hperm : (s.parts.map PartRecord.partNumber).Perm (List.range' 1 n))
    (uploadedParts : List PartRecord) (hlen : uploadedParts.length = n) :
    close s uploadedParts = .finalize (sortParts s.parts) ∧
    (sortParts s.parts).map PartRecord.partNumber = List.range' 1 n := by
  have hmap : ((sortParts s.parts).map PartRecord.partNumber).Perm (List.range' 1 n) :=
    ((sortParts_perm s.parts).map PartRecord.partNumber).trans hperm
  have hsorted := sortParts_sorted s.parts
  have hrange : (List.range' 1 n).Sorted (· ≤ ·) :=
    (List.pairwise_lt_range' 1 n).imp Nat.le_of_lt
  have heq : (sortParts s.parts).map PartRecord.partNumber = List.range' 1 n :=
    List.eq_of_perm_of_sorted hmap hsorted hrange
  refine ⟨?_, heq⟩
  have hpn : s.partNum = tr.length := by
    have := (runWrites_ok_partNum tr initState s h).1
    simpa [initState] using this
  have hlen2 : s.parts.length = tr.length := by
    have := (runWrites_ok_partNum tr initState s h).2
    simpa [initState] using this
  have hn : tr.length = n := by
    have := hperm.length_eq
    simpa [hlen2, List.length_range'] using this
  simp [close, hlen, hpn, hn]

/-- Witness for C4: parts submitted in order 2, 1 are finalized as 1, 2. -/
theorem finalize_manifest_sorted_witness :
    (sortParts [⟨2, "b"⟩, ⟨1, "a"⟩]).map PartRecord.partNumber = List.range' 1 2 :=
  (finalize_manifest_sorted [(some 2, "b"), (some 1, "a")]
    ⟨2, [⟨2, "b"⟩, ⟨1, "a"⟩]⟩ 2 rfl (by decide) [⟨1, "a"⟩, ⟨2, "b"⟩] rfl).2

/-- C7: when a close aborts on a part-count mismatch, the reported loss is
`int((submitted - acknowledged) / submitted * 100)`; with 13 parts submitted
and 12 acknowledged the reported loss is 7%. -/
theorem abort_loss_percentage
    (s : WriterState) (uploadedParts : List PartRecord)
    (hne : uploadedParts.length ≠ s.partNum) :
    close s uploadedParts =
      .abort ((s.partNum - uploadedParts.length) * 100 / s.partNum) ∧
    (s.partNum = 13 → uploadedParts.length = 12 → close s uploadedParts = .abort 7) := by
  constructor
  · simp [close, hne]
  · intro h13 h12
    simp [close, hne, h13, h12]

/-- Witness for C7: 13 parts submitted, 12 acknowledged, loss reported as 7%. -/
theorem abort_loss_percentage_witness :
    close ⟨13, []⟩ (List.replicate 12 ⟨1, "e"⟩) = .abort 7 :=
  (abort_loss_percentage ⟨13, []⟩ (List.replicate 12 ⟨1, "e"⟩) (by decide)).2
    rfl (by decide)

/-- C9: the exit handler ignores the with-block's exception state: its outcome
does not depend on `(exc_type, exc_val, exc_tb)`, and when the acknowledged
part count equals the submitted count it still issues
`complete_multipart_upload` (publishing the object) rather than aborting. -/
theorem aexit_ignores_exception
    (e1 e2 e3 f1 f2 f3 : Option String) (s : WriterState)
    (uploadedParts : List PartRecord) :
    aexit e1 e2 e3 s uploadedParts = aexit f1 f2 f3 s uploadedParts ∧
    (uploadedParts.length = s.partNum →
      aexit e1 e2 e3 s uploadedParts = .finalize (sortParts s.parts)) := by
  refine ⟨rfl, fun h => ?_⟩
  simp [aexit, h]

/-- Witness for C9: with an exception pending and a matching part count,
`__aexit__` still finalizes. -/
theorem aexit_ignores_exception_witness :
    aexit (some "RuntimeError") (some "boom") none ⟨1, [⟨1, "e"⟩]⟩ [⟨1, "e"⟩] =
      .finalize (sortParts [⟨1, "e"⟩]) :=
  (aexit_ignores_exception (some "RuntimeError") (some "boom") none none none none
    ⟨1, [⟨1, "e"⟩]⟩ [⟨1, "e"⟩]).2 rfl

/-- C10: after `n` successful writes the internal counter `_part_num` equals
`n`, and close compares the acknowledged count with `n`; an explicit
`part_num` only increments the counter (it does not advance the auto-number
sequence to that value), so a later automatic write reuses an explicitly
submitted part number: after `write(part_num=2); write()` the submitted
numbers are `[2, 2]` (one distinct number), and close finalizes exactly on an
acknowledged count of 2, not 1. -/
theorem partNum_counts_writes :
    (∀ tr s, runWrites initState tr = .ok s → s.partNum = tr.length) ∧
    (∀ tr s (uploadedParts : List PartRecord), runWrites initState tr = .ok s →
      ((close s uploadedParts).isFinalize = true ↔ uploadedParts.length = tr.length)) ∧
    (∀ s p e s', write s (some p) e = .ok s' → s'.partNum = s.partNum + 1) ∧
    (∃ s, runWrites initState [(some 2, "a"), (none, "b")] = .ok s ∧
      s.parts.map PartRecord.partNumber = [2, 2] ∧ s.partNum = 2 ∧
      (s.parts.map PartRecord.partNumber).dedup.length = 1 ∧
      (close s [⟨2, "a"⟩, ⟨2, "b"⟩]).isFinalize = true ∧
      (close s [⟨2, "a"⟩]).isFinalize = false) := by
  refine ⟨?_, ?_, ?_, ?_⟩
  · intro tr s h
    have := (runWrites_ok_partNum tr initState s h).1
    simpa [initState] using this
  · intro tr s uploadedParts h
    have hp : s.partNum = tr.length := by
      have := (runWrites_ok_partNum tr initState s h).1
      simpa [initState] using this
    rw [close_isFinalize_iff, hp]
  · intro s p e s' h
    exact (write_ok_partNum h).1
  · exact ⟨⟨2, [⟨2, "a"⟩, ⟨2, "b"⟩]⟩, rfl, by decide, rfl, by decide, by decide, by decide⟩

/-- Witness for C10: the counter invariant applied to the concrete
two-write trace. -/
theorem partNum_counts_writes_witness :
    (⟨2, [⟨2, "a"⟩, ⟨2, "b"⟩]⟩ : WriterState).partNum =
      [((some 2 : Option Nat), "a"), (none, "b")].length :=
  partNum_counts_writes.1 [(some 2, "a"), (none, "b")] ⟨2, [⟨2, "a"⟩, ⟨2, "b"⟩]⟩ rfl

/-- Exact ceiling division, the model of `int(math.ceil(a / float(b)))`. -/
def ceilDiv (a b : Nat) : Nat := (a + b - 1) / b

/-- The chunk plan computed at the top of `CLI._upload_file_multipart`
(cli.py lines 254-257) and `S3Util._upload_large_file` (s3utils.py lines
252-255):

    chunks_number = int(math.ceil(file_size / float(chunk_size)))
    if chunks_number > max_chunks_number:
        chunk_size = file_size // max_chunks_number + 1
        chunks_number = int(math.ceil(file_size / float(chunk_size)))

The first component is the effective chunk size, the second the chunk count. -/
def chunkPlan (fileSize chunkSize maxChunks : Nat) : Nat × Nat :=
  if ceilDiv fileSize chunkSize > maxChunks then
    (fileSize / maxChunks + 1, ceilDiv fileSize (fileSize / maxChunks + 1))
  else
    (chunkSize, ceilDiv fileSize chunkSize)

/-- The recomputed chunk count stays under the cap:
`ceil(s / (s / m + 1)) ≤ m` for positive `m`. -/
theorem ceilDiv_floorSucc_le (s m : Nat) (hm : 0 < m) :
    ceilDiv s (s / m + 1) ≤ m := by
  unfold ceilDiv
  rw [Nat.div_le_iff_le_mul_add_pred (Nat.succ_pos (s / m))]
  have key : s < (s / m + 1) * m :=
    (Nat.div_lt_iff_lt_mul hm).mp (Nat.lt_succ_self (s / m))
  have h1 : s + (s / m + 1) - 1 = s + s / m := rfl
  have h2 : s / m + 1 - 1 = s / m := rfl
  rw [h1, h2]
  exact Nat.add_le_add_right (Nat.le_of_lt key) (s / m)

/-- C2: for every file of known positive size `s` scheduled through the
multipart path with positive configured `chunk_size` and positive cap
`max_chunks`, the derived chunk count satisfies `chunk_count ≤ max_chunks`
and `chunk_count = ceil(s / effective_chunk_size)`, where the effective
chunk size is the one actually used to split the file. -/
theorem chunkPlan_count_le_cap
    (s c m : Nat) (hs : 0 < s) (hc : 0 < c) (hm : 0 < m) :
    (chunkPlan s c m).2 ≤ m ∧
    (chunkPlan s c m).2 = ceilDiv s (chunkPlan s c m).1 := by
  by_cases hgt : ceilDiv s c > m
  · simp only [chunkPlan, if_pos hgt]
    exact ⟨ceilDiv_floorSucc_le s m hm, trivial⟩
  · simp only [chunkPlan, if_neg hgt]
    exact ⟨Nat.le_of_not_lt hgt, trivial⟩

/-- Witness for C2 at `s = 10`, `c = 3`, `m = 2`: the recomputed plan is
chunk size 6 with 2 chunks, within the cap. -/
theorem chunkPlan_count_le_cap_witness :
    (chunkPlan 10 3 2).2 ≤ 2 ∧ (chunkPlan 10 3 2).2 = ceilDiv 10 (chunkPlan 10 3 2).1 :=
  chunkPlan_count_le_cap 10 3 2 (by decide) (by decide) (by decide)

/-- C3 counterexample: with `s = 2000`, `c = 1`, `m = 2` the naive count
2000 exceeds the cap, and the engine recomputes the chunk size as
`2000 // 2 + 1 = 1001`, not `ceil(2000 / 2) = 1000`. -/
theorem chunkPlan_recompute_not_ceil :
    ceilDiv 2000 1 > 2 ∧
    (chunkPlan 2000 1 2).1 = 1001 ∧
    ceilDiv 2000 2 = 1000 ∧
    (chunkPlan 2000 1 2).1 ≠ ceilDiv 2000 2 := by
  refine ⟨by norm_num [ceilDiv], ?_, by norm_num [ceilDiv], ?_⟩ <;>
    norm_num [chunkPlan, ceilDiv]

/-- C3 amended: when the naive chunk count exceeds the cap, the engine
recomputes the effective chunk size as `size // max_chunks + 1`
(floored division plus one); this coincides with `ceil(size / max_chunks)`
exactly when `max_chunks` does not divide `size`. -/
theorem chunkPlan_recompute_floor_succ
    (s c m : Nat) (hs : 0 < s) (hc : 0 < c) (hm : 0 < m)
    (hgt : ceilDiv s c > m) :
    (chunkPlan s c m).1 = s / m + 1 ∧
    (¬ m ∣ s → s / m + 1 = ceilDiv s m) := by
  constructor
  · simp [chunkPlan, hgt]
  · intro hnd
    have hmod : 0 < s % m := Nat.pos_of_ne_zero fun h0 =>
      hnd (Nat.dvd_iff_mod_eq_zero.mpr h0)
    have hmlt : s % m < m := Nat.mod_lt s hm
    have hdm : m * (s / m) + s % m = s := Nat.div_add_mod s m
    unfold ceilDiv
    refine (Nat.div_eq_of_lt_le ?_ ?_).symm
    · have e1 : (s / m + 1) * m = m * (s / m) + m := by ring
      rw [e1]
      omega
    · have e2 : (s / m + 1 + 1) * m = m * (s / m) + m + m := by ring
      rw [e2]
      omega

/-- Witness for C3 amended at `s = 10`, `c = 1`, `m = 3`: recomputed chunk
size is `10 // 3 + 1 = 4 = ceil(10 / 3)`. -/
theorem chunkPlan_recompute_floor_succ_witness :
    (chunkPlan 10 1 3).1 = 10 / 3 + 1 ∧ 10 / 3 + 1 = ceilDiv 10 3 := by
  have h := chunkPlan_recompute_floor_succ 10 1 3 (by decide) (by decide)
    (by decide) (by decide)
  exact ⟨h.1, h.2 (by decide)⟩

/-- The observable behaviour of one attempt of a transfer job's `try` body:
either the attempt succeeds, or it raises after having already advanced the
bytes counter by `countedBytes` (the chunks streamed or uploaded, and counted
by `bytes_pbar.update(len(chunk))`, before the exception).  In
`CLI._upload_file` an attempt counts no bytes before its single
`upload_fileobj` call, so a failing attempt always has `countedBytes = 0`;
in `CLI._download_file` and `CLI._upload_file_multipart` a failing attempt
may already have counted some chunks. -/
inductive AttemptOutcome where
  | ok
  | fail (countedBytes : Nat)
deriving DecidableEq, Repr

/-- What one job contributes to the run: its returned status, the number of
attempts made, the increments to the files and bytes progress counters and
the number of retry-delay sleeps. -/
structure JobResult where
  success : Bool
  attempts : Nat
  filesInc : Nat
  bytesInc : Nat
  sleeps : Nat
deriving DecidableEq, Repr

/-- The retry loop shared by `CLI._upload_file` (cli.py lines 182-210),
`CLI._upload_file_multipart` (lines 239-278) and `CLI._download_file`
(lines 292-324), run over the per-attempt outcomes (one outcome per loop
iteration, the list length being `num_retries`):

    retries = 0
    while retries < num_retries:
        try:
            retries += 1
            ...            # may update bytes_pbar per chunk before raising
            files_pbar.update(1)
            [bytes_pbar.update(file_size)]   # single-stream upload
            return True
        except Exception as err:
            err_msg = err
            await asyncio.sleep(delay)
    print(err_msg)
    files_pbar.update(1)
    bytes_pbar.update(file_size)
    return False

A successful attempt advances the bytes counter by the file's full size
(either at once, or chunk by chunk summing to the size) and the files
counter by one; a failing attempt advances the bytes counter by whatever
chunks it had already counted, then sleeps; exhaustion advances both
counters by the declared size and one file and returns `False`. -/
def jobLoop (fileSize : Nat) : List AttemptOutcome → JobResult
  | [] => ⟨false, 0, 1, fileSize, 0⟩
  | .ok :: _ => ⟨true, 1, 1, fileSize, 0⟩
  | .fail counted :: rest =>
      let r := jobLoop fileSize rest
      ⟨r.success, r.attempts + 1, r.filesInc, r.bytesInc + counted, r.sleeps + 1⟩

/-- A scheduled transfer job: source path and the size reported by the scan
(`FSEntry.size`); jobs with `size = none` are skipped by the engine. -/
structure Job where
  path : String
  size : Option Nat
deriving DecidableEq, Repr

/-- The `CLI._upload_files_multipart` scheduling loop (cli.py lines
227-237): the multipart jobs are awaited directly
(`status = await self._upload_file_multipart(...)`), so `status` is the
job's boolean result and a `False` appends the source path to
`error_files`.  The result is `(error_files, files counter, bytes
counter)`; each job's attempt outcomes are supplied alongside it, and jobs
with unknown size are skipped. -/
def runMultipartBatch : List (Job × List AttemptOutcome) → List String × Nat × Nat
  | [] => ([], 0, 0)
  | (j, outs) :: rest =>
      match j.size with
      | none => runMultipartBatch rest
      | some sz =>
          let r := jobLoop sz outs
          let acc := runMultipartBatch rest
          ((if r.success then [] else [j.path]) ++ acc.1,
            r.filesInc + acc.2.1, r.bytesInc + acc.2.2)

/-- Truthiness of the value bound by `status = await pool.spawn(...)` in the
pooled scheduling loops: `asyncio_pool.AioPool.spawn` waits for a free slot
and returns the created task object itself, not the job's result (the
library's `exec` is what awaits the task).  A task defines no `__bool__`,
so `bool(status)` is `True` on every iteration. -/
def spawnStatusTruthy : Bool := true

/-- The pooled scheduling loops `CLI._upload_files` (cli.py lines 170-179)
and `CLI.download` (cli.py lines 144-153), with the same pattern in
`S3Util._upload_small_files` and `S3Util.download`: every file with a known
size is spawned into the worker pool; the spawned job still runs to
completion before the pool closes and advances the progress counters, but
`if not status` tests the truthiness of the task object returned by
`pool.spawn`, so the append of the source path to `error_files` is governed
by `spawnStatusTruthy`, not by the job's result. -/
def runPooledBatch : List (Job × List AttemptOutcome) → List String × Nat × Nat
  | [] => ([], 0, 0)
  | (j, outs) :: rest =>
      match j.size with
      | none => runPooledBatch rest
      | some sz =>
          let r := jobLoop sz outs
          let acc := runPooledBatch rest
          ((if spawnStatusTruthy then [] else [j.path]) ++ acc.1,
            r.filesInc + acc.2.1, r.bytesInc + acc.2.2)

/-- A job whose every attempt fails is attempted once per outcome and sleeps
once per attempt; it returns `False` and advances the files counter by one
and the bytes counter by the declared size plus whatever the failing
attempts had already counted. -/
theorem jobLoop_all_fail (fileSize : Nat) :
    ∀ outs : List AttemptOutcome, (∀ o ∈ outs, o ≠ .ok) →
      (jobLoop fileSize outs).success = false ∧
      (jobLoop fileSize outs).attempts = outs.length ∧
      (jobLoop fileSize outs).sleeps = outs.length ∧
      (jobLoop fileSize outs).filesInc = 1 := by
  intro outs
  induction outs with
  | nil => intro _; simp [jobLoop]
  | cons o rest ih =>
      intro h
      cases o with
      | ok => exact absurd rfl (h .ok (List.mem_cons_self _ _))
      | fail counted =>
          have hr := ih fun o ho => h o (List.mem_cons_of_mem _ ho)
          simp [jobLoop, hr.1, hr.2.1, hr.2.2.1, hr.2.2.2]

/-- Every job advances the files counter by exactly one, and the bytes
counter by at least the declared size — exactly the declared size when no
failing attempt had counted chunks already. -/
theorem jobLoop_counters (fileSize : Nat) :
    ∀ outs : List AttemptOutcome,
      (jobLoop fileSize outs).filesInc = 1 ∧
      fileSize ≤ (jobLoop fileSize outs).bytesInc ∧
      ((∀ o ∈ outs, o = .ok ∨ o = .fail 0) →
        (jobLoop fileSize outs).bytesInc = fileSize) := by
  intro outs
  induction outs with
  | nil => simp [jobLoop]
  | cons o rest ih =>
      cases o with
      | ok => simp [jobLoop]
      | fail counted =>
          refine ⟨by simp [jobLoop, ih.1], ?_, ?_⟩
          · have := ih.2.1
            simp only [jobLoop]
            omega
          · intro h
            have hb : counted = 0 := by
              rcases h _ (List.mem_cons_self _ _) with h0 | h0
              · exact absurd h0 (by simp)
              · simpa using h0
            have := ih.2.2 fun o ho => h o (List.mem_cons_of_mem _ ho)
            simp [jobLoop, this, hb]

/-- Number of jobs the run schedules (files with a known size): the files
progress bar's expected total. -/
def declaredFiles : List (Job × List AttemptOutcome) → Nat
  | [] => 0
  | (j, _) :: rest => (match j.size with | none => 0 | some _ => 1) + declaredFiles rest

/-- Sum of the scheduled jobs' declared sizes: the bytes progress bar's
expected total. -/
def declaredBytes : List (Job × List AttemptOutcome) → Nat
  | [] => 0
  | (j, _) :: rest => (match j.size with | none => 0 | some sz => sz) + declaredBytes rest

/-- A path that is no pair's job path never occurs in the error-files list
returned by the multipart scheduling loop. -/
theorem runMultipartBatch_count_eq_zero (p : String) :
    ∀ pairs : List (Job × List AttemptOutcome),
      (∀ q ∈ pairs, q.1.path ≠ p) → (runMultipartBatch pairs).1.count p = 0 := by
  intro pairs
  induction pairs with
  | nil => intro _; simp [runMultipartBatch]
  | cons q rest ih =>
      intro h
      obtain ⟨j, outs⟩ := q
      have hj : j.path ≠ p := h (j, outs) (List.mem_cons_self _ _)
      have hrest := ih fun q hq => h q (List.mem_cons_of_mem _ hq)
      cases hsz : j.size with
      | none => simpa [runMultipartBatch, hsz] using hrest
      | some sz =>
          by_cases hsucc : (jobLoop sz outs).success
          · simpa [runMultipartBatch, hsz, hsucc] using hrest
          · simp [runMultipartBatch, hsz, hsucc, List.count_cons, hrest,
              Ne.symm hj]

/-- The multipart scheduling loop, which awaits each job directly, records
an all-failing job's source path exactly once (scheduled paths being
distinct) — the evident intent of the failure bookkeeping. -/
theorem multipart_batch_records_failure_once
    (pairs : List (Job × List AttemptOutcome)) (j : Job)
    (outs : List AttemptOutcome) (sz retryCount : Nat)
    (hmem : (j, outs) ∈ pairs)
    (hnodup : (pairs.map fun q => q.1.path).Nodup)
    (hsz : j.size = some sz)
    (hlen : outs.length = retryCount)
    (hfail : ∀ o ∈ outs, o ≠ .ok) :
    (jobLoop sz outs).attempts = retryCount ∧
    (jobLoop sz outs).sleeps = retryCount ∧
    (runMultipartBatch pairs).1.count j.path = 1 := by
  have hjob := jobLoop_all_fail sz outs hfail
  refine ⟨hlen ▸ hjob.2.1, hlen ▸ hjob.2.2.1, ?_⟩
  induction pairs with
  | nil => exact absurd hmem (List.not_mem_nil _)
  | cons q rest ih =>
      obtain ⟨j', outs'⟩ := q
      have hnd := List.nodup_cons.mp hnodup
      have hnotin : j'.path ∉ rest.map (fun q => q.1.path) := by
        simpa using hnd.1
      rcases List.mem_cons.mp hmem with heq | hmemr
      · obtain ⟨hj, houts⟩ := Prod.mk.injEq .. ▸ heq
        subst hj houts
        have hzero : (runMultipartBatch rest).1.count j.path = 0 := by
          refine runMultipartBatch_count_eq_zero j.path rest fun q hq hqp => hnotin ?_
          have := List.mem_map_of_mem (fun q => q.1.path) hq
          simpa [hqp] using this
        simp [runMultipartBatch, hsz, hjob.1, List.count_cons, hzero]
      · have hne : j'.path ≠ j.path := by
          intro hp
          refine hnotin ?_
          have := List.mem_map_of_mem (fun q => q.1.path) hmemr
          simpa [hp] using this
        have hr := ih hmemr hnd.2
        cases hsz' : j'.size with
        | none => simpa [runMultipartBatch, hsz'] using hr
        | some sz' =>
            by_cases hsucc : (jobLoop sz' outs').success
            · simpa [runMultipartBatch, hsz', hsucc] using hr
            · simp [runMultipartBatch, hsz', hsucc, List.count_cons, hr,
                Ne.symm hne]

/-- The pooled scheduling loops return an empty error list on every run:
the `if not status` append tests the always-truthy `pool.spawn` task and
never fires. -/
theorem pooledBatch_errors_nil :
    ∀ pairs : List (Job × List AttemptOutcome), (runPooledBatch pairs).1 = [] := by
  intro pairs
  induction pairs with
  | nil => rfl
  | cons q rest ih =>
      obtain ⟨j, outs⟩ := q
      cases hsz : j.size with
      | none => simpa [runPooledBatch, hsz] using ih
      | some sz => simp [runPooledBatch, hsz, spawnStatusTruthy, ih]

/-- The pooled and the multipart scheduling loops advance the two progress
counters identically; they differ only in the error list. -/
theorem pooledBatch_counters_eq :
    ∀ pairs : List (Job × List AttemptOutcome),
      (runPooledBatch pairs).2 = (runMultipartBatch pairs).2 := by
  intro pairs
  induction pairs with
  | nil => rfl
  | cons q rest ih =>
      obtain ⟨j, outs⟩ := q
      cases hsz : j.size with
      | none => simpa [runPooledBatch, runMultipartBatch, hsz] using ih
      | some sz =>
          simp only [runPooledBatch, runMultipartBatch, hsz]
          rw [ih]

/-- Both progress counters reach their expected totals over the multipart
batch: the files counter counts the scheduled jobs, and the bytes counter
is at least the declared sum, exactly the declared sum when no failing
attempt had counted chunk bytes. -/
theorem multipartBatch_counters :
    ∀ pairs : List (Job × List AttemptOutcome),
      (runMultipartBatch pairs).2.1 = declaredFiles pairs ∧
      declaredBytes pairs ≤ (runMultipartBatch pairs).2.2 ∧
      ((∀ q ∈ pairs, ∀ o ∈ q.2, o = .ok ∨ o = .fail 0) →
        (runMultipartBatch pairs).2.2 = declaredBytes pairs) := by
  intro pairs
  induction pairs with
  | nil => exact ⟨rfl, Nat.le_refl 0, fun _ => rfl⟩
  | cons q rest ih =>
      obtain ⟨j', outs'⟩ := q
      obtain ⟨ih1, ih2, ih3⟩ := ih
      cases hsz : j'.size with
      | none =>
          refine ⟨by simpa [runMultipartBatch, declaredFiles, hsz] using ih1,
            by simpa [runMultipartBatch, declaredBytes, hsz] using ih2,
            fun h => ?_⟩
          have := ih3 fun q hq => h q (List.mem_cons_of_mem _ hq)
          simpa [runMultipartBatch, declaredBytes, hsz] using this
      | some sz =>
          have hcnt := jobLoop_counters sz outs'
          refine ⟨?_, ?_, fun h => ?_⟩
          · simp [runMultipartBatch, declaredFiles, hsz, hcnt.1, ih1]
          · have := ih2
            simp only [runMultipartBatch, declaredBytes, hsz]
            have hb := hcnt.2.1
            omega
          · have hz := ih3 fun q hq => h q (List.mem_cons_of_mem _ hq)
            have hbe := hcnt.2.2 fun o ho =>
              h (j', outs') (List.mem_cons_self _ _) o ho
            simp [runMultipartBatch, declaredBytes, hsz, hz, hbe]

/-- In the multipart scheduling loop, a scheduled job that fails every
attempt has its source path in the returned error list. -/
theorem multipartBatch_mem_of_fail :
    ∀ (pairs : List (Job × List AttemptOutcome)) (j : Job)
      (outs : List AttemptOutcome),
      (j, outs) ∈ pairs → j.size ≠ none → (∀ o ∈ outs, o ≠ .ok) →
      j.path ∈ (runMultipartBatch pairs).1 := by
  intro pairs
  induction pairs with
  | nil => intro j outs hmem _ _; exact absurd hmem (List.not_mem_nil _)
  | cons q rest ih =>
      intro j outs hmem hjsz hfail
      obtain ⟨j', outs'⟩ := q
      cases hsz : j'.size with
      | none =>
          rcases List.mem_cons.mp hmem with heq | hmemr
          · obtain ⟨hj, _⟩ := Prod.mk.injEq .. ▸ heq
            exact absurd (hj ▸ hsz) hjsz
          · simpa [runMultipartBatch, hsz] using ih j outs hmemr hjsz hfail
      | some sz =>
          rcases List.mem_cons.mp hmem with heq | hmemr
          · obtain ⟨hj, houts⟩ := Prod.mk.injEq .. ▸ heq
            subst hj houts
            have hf := (jobLoop_all_fail sz outs hfail).1
            simp [runMultipartBatch, hsz, hf]
          · have hmm := ih j outs hmemr hjsz hfail
            by_cases hsucc : (jobLoop sz outs').success <;>
              simp [runMultipartBatch, hsz, hsucc, hmm]

/-- C6 (code bug): in the pooled upload/download scheduling loops the
failure append is dead — `status` is bound to the always-truthy task
returned by `pool.spawn`, not to the job's result — so a job that fails
every attempt is attempted exactly `retry_count` times, sleeping the retry
delay after each attempt, yet its source path appears zero times, not once,
in the error list the run returns. -/
theorem pooled_failing_job_not_recorded :
    (∀ pairs : List (Job × List AttemptOutcome), (runPooledBatch pairs).1 = []) ∧
    (jobLoop 5 [.fail 0, .fail 0, .fail 0]).success = false ∧
    (jobLoop 5 [.fail 0, .fail 0, .fail 0]).attempts = 3 ∧
    (jobLoop 5 [.fail 0, .fail 0, .fail 0]).sleeps = 3 ∧
    (runPooledBatch [(⟨"a", some 5⟩, [.fail 0, .fail 0, .fail 0])]).1.count "a" = 0 :=
  ⟨pooledBatch_errors_nil, rfl, rfl, rfl, rfl⟩

/-- C5 counterexample: a download job of declared size 10 whose single
attempt streams one 4-byte chunk (counted by the bytes progress bar) before
failing; after the retry budget is exhausted the run's bytes counter has
advanced by 4 + 10 = 14, so the end-of-run bytes counter does not equal the
sum of the scheduled jobs' declared sizes. -/
theorem progress_bytes_counterexample :
    (runPooledBatch [(⟨"s3://b/f", some 10⟩, [.fail 4])]).2.2 = 14 ∧
    declaredBytes [(⟨"s3://b/f", some 10⟩, [.fail 4])] = 10 ∧
    (runPooledBatch [(⟨"s3://b/f", some 10⟩, [.fail 4])]).2.2 ≠
      declaredBytes [(⟨"s3://b/f", some 10⟩, [.fail 4])] := by
  refine ⟨rfl, rfl, by decide⟩

/-- C5 amended: a job that exhausts its retries still advances the files
counter by exactly one and the bytes counter by its declared size, in the
pooled loops and the multipart loop alike, so the files counter ends equal
to the number of scheduled jobs; the bytes counter ends at least the sum of
the declared sizes, exactly equal when no failing attempt had already
counted chunk bytes.  The source path is recorded in the returned error
list only by the multipart scheduling loop, which awaits its jobs directly;
the pooled upload/download loops test the truthiness of the `pool.spawn`
task and therefore always return an empty error list. -/
theorem progress_counters_amended :
    (∀ pairs : List (Job × List AttemptOutcome),
      (runPooledBatch pairs).2.1 = declaredFiles pairs ∧
      declaredBytes pairs ≤ (runPooledBatch pairs).2.2 ∧
      ((∀ q ∈ pairs, ∀ o ∈ q.2, o = .ok ∨ o = .fail 0) →
        (runPooledBatch pairs).2.2 = declaredBytes pairs) ∧
      (runPooledBatch pairs).1 = []) ∧
    (∀ pairs : List (Job × List AttemptOutcome),
      (runMultipartBatch pairs).2.1 = declaredFiles pairs ∧
      declaredBytes pairs ≤ (runMultipartBatch pairs).2.2 ∧
      ((∀ q ∈ pairs, ∀ o ∈ q.2, o = .ok ∨ o = .fail 0) →
        (runMultipartBatch pairs).2.2 = declaredBytes pairs) ∧
      (∀ j outs, (j, outs) ∈ pairs → j.size ≠ none → (∀ o ∈ outs, o ≠ .ok) →
        j.path ∈ (runMultipartBatch pairs).1)) := by
  refine ⟨fun pairs => ?_, fun pairs => ?_⟩
  · have heq := pooledBatch_counters_eq pairs
    have h := multipartBatch_counters pairs
    have h1 : (runPooledBatch pairs).2.1 = (runMultipartBatch pairs).2.1 :=
      congrArg Prod.fst heq
    have h2 : (runPooledBatch pairs).2.2 = (runMultipartBatch pairs).2.2 :=
      congrArg Prod.snd heq
    exact ⟨h1 ▸ h.1, h2 ▸ h.2.1, fun hc => h2 ▸ h.2.2 hc,
      pooledBatch_errors_nil pairs⟩
  · exact ⟨(multipartBatch_counters pairs).1,
      (multipartBatch_counters pairs).2.1,
      (multipartBatch_counters pairs).2.2,
      fun j outs hm hs hf => multipartBatch_mem_of_fail pairs j outs hm hs hf⟩

/-- Witness for C5 amended at one-job runs: an all-failing clean job ends
the bytes counter exactly at its declared size, and the multipart loop
records its path. -/
theorem progress_counters_amended_witness :
    (runPooledBatch [(⟨"a", some 5⟩, [.fail 0, .fail 0])]).2.2 =
      declaredBytes [(⟨"a", some 5⟩, [.fail 0, .fail 0])] ∧
    "a" ∈ (runMultipartBatch [(⟨"a", some 5⟩, [.fail 0, .fail 0])]).1 := by
  have h := progress_counters_amended
  exact ⟨(h.1 [(⟨"a", some 5⟩, [.fail 0, .fail 0])]).2.2.1 (by decide),
    (h.2 [(⟨"a", some 5⟩, [.fail 0, .fail 0])]).2.2.2 ⟨"a", some 5⟩
      [.fail 0, .fail 0] (by decide) (by decide) (by decide)⟩

/-- The scheme separator, the Python literal given to `split` in
`s3_path.split('://')[-1]` (cli.py line 330). -/
def schemeSep : List Char := [':', '/', '/']

/-- Whether the separator occurs somewhere in `l`. -/
def hasSep : List Char → Bool
  | [] => false
  | c :: cs => schemeSep.isPrefixOf (c :: cs) || hasSep cs

/-- Drop everything up to and including the leftmost separator occurrence. -/
def dropSep : List Char → List Char
  | [] => []
  | c :: cs => if schemeSep.isPrefixOf (c :: cs) then cs.drop 2 else dropSep cs

/-- `dropSep` strictly shortens a list that contains the separator. -/
theorem dropSep_length_lt : ∀ l : List Char, hasSep l = true →
    (dropSep l).length < l.length := by
  intro l
  induction l with
  | nil => intro h; simp [hasSep] at h
  | cons c cs ih =>
      intro h
      by_cases hp : schemeSep.isPrefixOf (c :: cs)
      · simp only [dropSep, if_pos hp, List.length_drop, List.length_cons]
        omega
      · have hcs : hasSep cs = true := by
          have := h
          simp only [hasSep, hp, Bool.false_or] at this
          exact this
        simp only [dropSep, if_neg hp, List.length_cons]
        exact Nat.lt_trans (ih hcs) (Nat.lt_succ_self _)

/-- The last element of `x.split('://')`: Python splits on leftmost
non-overlapping occurrences, so the final piece is obtained by repeatedly
discarding everything through the leftmost separator occurrence until none
remains. -/
def lastPiece (l : List Char) : List Char :=
  if h : hasSep l = true then lastPiece (dropSep l) else l
termination_by l.length
decreasing_by exact dropSep_length_lt l h

/-- `x.rstrip('/')`: remove all trailing forward slashes. -/
def rstripSlash (l : List Char) : List Char :=
  (l.reverse.dropWhile (fun c => c == '/')).reverse

/-- `re.sub(r'\\+', '/', x)`: each maximal run of backslashes is replaced
by a single forward slash. -/
def collapseBackslashes : List Char → List Char
  | [] => []
  | c :: cs =>
      if c = '\\' then
        '/' :: collapseBackslashes (cs.dropWhile (fun d => d == '\\'))
      else
        c :: collapseBackslashes cs
termination_by l => l.length
decreasing_by
  · have h : (cs.dropWhile (fun d => d == '\\')).IsSuffix cs :=
      List.dropWhile_suffix _
    have := h.sublist.length_le
    simp only [List.length_cons]
    omega
  · simp only [List.length_cons]
    omega

/-- The s3 branch of `CLI._prepare_paths` (cli.py line 330):
`s3_path.split('://')[-1].rstrip('/')`. -/
def cliPrepareS3 (l : List Char) : List Char :=
  rstripSlash (lastPiece l)

/-- The local branch of `CLI._prepare_paths` (cli.py lines 328-331) and of
`S3Util._prepare_paths` (s3utils.py lines 107-110): on Windows, backslash
runs are first replaced by forward slashes; then trailing slashes are
stripped. -/
def cliPrepareLocal (isWindows : Bool) (l : List Char) : List Char :=
  rstripSlash (if isWindows then collapseBackslashes l else l)

/-- The characters of the literal scheme string prepended by
`S3Util._prepare_paths`. -/
def s3SchemeChars : List Char := ['s', '3', ':', '/', '/']

/-- The s3 branch of `S3Util._prepare_paths` (s3utils.py lines 105-109):
the scheme string is prepended when missing, then trailing slashes are
stripped. -/
def s3utilPrepareS3 (l : List Char) : List Char :=
  rstripSlash (if s3SchemeChars.isPrefixOf l then l else s3SchemeChars ++ l)

/-- `dropWhile` is idempotent. -/
theorem dropWhile_self (p : Char → Bool) :
    ∀ l : List Char, (l.dropWhile p).dropWhile p = l.dropWhile p := by
  intro l
  induction l with
  | nil => simp
  | cons c cs ih =>
      by_cases hp : p c
      · simp [List.dropWhile_cons, hp, ih]
      · simp [List.dropWhile_cons, hp]

/-- `rstrip('/')` is idempotent. -/
theorem rstripSlash_self (l : List Char) :
    rstripSlash (rstripSlash l) = rstripSlash l := by
  unfold rstripSlash
  rw [List.reverse_reverse, dropWhile_self]

/-- `rstripSlash l` is a prefix of `l`. -/
theorem rstripSlash_isPre (l : List Char) : (rstripSlash l).IsPrefix l := by
  unfold rstripSlash
  have h : (l.reverse.dropWhile (fun c => c == '/')).IsSuffix l.reverse :=
    List.dropWhile_suffix _
  have h2 := List.reverse_prefix.mpr h
  rwa [List.reverse_reverse] at h2

/-- `hasSep` detects exactly the lists with the separator as an infix. -/
theorem hasSep_iff_isIn (l : List Char) :
    hasSep l = true ↔ schemeSep.IsInfix l := by
  induction l with
  | nil =>
      simp [hasSep, schemeSep]
  | cons c cs ih =>
      simp only [hasSep, Bool.or_eq_true, List.isPrefixOf_iff_prefix, ih,
        List.infix_cons_iff]

/-- A prefix of a separator-free list is separator-free. -/
theorem hasSep_false_of_isPre {l₁ l₂ : List Char} (h : l₁.IsPrefix l₂)
    (h2 : hasSep l₂ = false) : hasSep l₁ = false := by
  cases h1 : hasSep l₁ with
  | false => rfl
  | true =>
      have : schemeSep.IsInfix l₂ :=
        ((hasSep_iff_isIn l₁).mp h1).trans h.isInfix
      rw [(hasSep_iff_isIn l₂).mpr this] at h2
      exact absurd h2 (by simp)

/-- The final piece of a split never contains the separator. -/
theorem hasSep_lastPiece (l : List Char) : hasSep (lastPiece l) = false := by
  have H : ∀ n (l : List Char), l.length ≤ n → hasSep (lastPiece l) = false := by
    intro n
    induction n with
    | zero =>
        intro l hl
        have : l = [] := List.eq_nil_of_length_eq_zero (Nat.le_zero.mp hl)
        subst this
        rw [lastPiece]
        simp [hasSep]
    | succ n ih =>
        intro l hl
        by_cases h : hasSep l = true
        · rw [lastPiece, dif_pos h]
          exact ih (dropSep l) (by have := dropSep_length_lt l h; omega)
        · rw [lastPiece, dif_neg h]
          simpa using h
  exact H l.length l (Nat.le_refl _)

/-- On a separator-free list, `lastPiece` is the identity. -/
theorem lastPiece_of_hasSep_false {l : List Char} (h : hasSep l = false) :
    lastPiece l = l := by
  rw [lastPiece, dif_neg (by simp [h])]

/-- The output of `collapseBackslashes` contains no backslash. -/
theorem collapseBackslashes_no_backslash (l : List Char) :
    '\\' ∉ collapseBackslashes l := by
  have H : ∀ n (l : List Char), l.length ≤ n → '\\' ∉ collapseBackslashes l := by
    intro n
    induction n with
    | zero =>
        intro l hl
        have : l = [] := List.eq_nil_of_length_eq_zero (Nat.le_zero.mp hl)
        subst this
        simp [collapseBackslashes]
    | succ n ih =>
        intro l hl
        match l with
        | [] => simp [collapseBackslashes]
        | c :: cs =>
            by_cases hc : c = '\\'
            · rw [collapseBackslashes, if_pos hc]
              intro hmem
              rcases List.mem_cons.mp hmem with h1 | h1
              · exact absurd h1.symm (by decide)
              · have hlen : (cs.dropWhile (fun d => d == '\\')).length ≤ n := by
                  have hsuf : (cs.dropWhile (fun d => d == '\\')).IsSuffix cs :=
                    List.dropWhile_suffix _
                  have := hsuf.sublist.length_le
                  simp only [List.length_cons] at hl
                  omega
                exact ih _ hlen h1
            · rw [collapseBackslashes, if_neg hc]
              intro hmem
              rcases List.mem_cons.mp hmem with h1 | h1
              · exact hc h1.symm
              · have hlen : cs.length ≤ n := by
                  simp only [List.length_cons] at hl
                  omega
                exact ih cs hlen h1
  exact H l.length l (Nat.le_refl _)

/-- On a backslash-free list, `collapseBackslashes` is the identity. -/
theorem collapseBackslashes_of_no_backslash :
    ∀ l : List Char, '\\' ∉ l → collapseBackslashes l = l := by
  intro l
  induction l with
  | nil => intro _; simp [collapseBackslashes]
  | cons c cs ih =>
      intro h
      have hc : c ≠ '\\' := fun he => h (he ▸ List.mem_cons_self _ _)
      rw [collapseBackslashes, if_neg hc,
        ih fun hm => h (List.mem_cons_of_mem _ hm)]

/-- C8 counterexample: the `S3Util._prepare_paths` normalization of the s3
root is not idempotent.  On the input `"s3://"` the first application strips
the trailing slashes down to `"s3:"`; the second application sees no scheme
and prepends it, yielding `"s3://s3:"`. -/
theorem s3util_normalize_not_idempotent :
    s3utilPrepareS3 s3SchemeChars = [ 's', '3', ':'] ∧
    s3utilPrepareS3 (s3utilPrepareS3 s3SchemeChars) =
      [ 's', '3', ':', '/', '/', 's', '3', ':'] ∧
    s3utilPrepareS3 (s3utilPrepareS3 s3SchemeChars) ≠
      s3utilPrepareS3 s3SchemeChars := by
  refine ⟨rfl, rfl, by decide⟩

/-- C8 amended: the `CLI._prepare_paths` normalizations (strip a scheme
separator for the remote root; convert backslash runs and strip trailing
slashes for the local root) are idempotent for every input; the
`S3Util._prepare_paths` remote normalization — which prepends the scheme
when missing rather than stripping it — is idempotent exactly on those
inputs whose normalized form still carries the scheme (the counterexample
input loses it). -/
theorem prepare_paths_idempotent_amended :
    (∀ l : List Char, cliPrepareS3 (cliPrepareS3 l) = cliPrepareS3 l) ∧
    (∀ (w : Bool) (l : List Char),
      cliPrepareLocal w (cliPrepareLocal w l) = cliPrepareLocal w l) ∧
    (∀ l : List Char, s3SchemeChars.isPrefixOf (s3utilPrepareS3 l) = true →
      s3utilPrepareS3 (s3utilPrepareS3 l) = s3utilPrepareS3 l) := by
  refine ⟨fun l => ?_, fun w l => ?_, fun l h => ?_⟩
  · have hfree : hasSep (rstripSlash (lastPiece l)) = false :=
      hasSep_false_of_isPre (rstripSlash_isPre (lastPiece l)) (hasSep_lastPiece l)
    unfold cliPrepareS3
    rw [lastPiece_of_hasSep_false hfree, rstripSlash_self]
  · cases w with
    | false => simp only [cliPrepareLocal, if_neg]; exact rstripSlash_self l
    | true =>
        simp only [cliPrepareLocal, if_pos]
        have hfree : '\\' ∉ rstripSlash (collapseBackslashes l) := fun hm =>
          collapseBackslashes_no_backslash l
            ((rstripSlash_isPre (collapseBackslashes l)).subset hm)
        rw [collapseBackslashes_of_no_backslash _ hfree, rstripSlash_self]
  · unfold s3utilPrepareS3
    rw [if_pos]
    · exact rstripSlash_self _
    · exact h

/-- Witness for C8 amended at concrete roots. -/
theorem prepare_paths_idempotent_amended_witness :
    cliPrepareS3 (cliPrepareS3 [ 's', '3', ':', '/', '/', 'b', '/']) =
      cliPrepareS3 [ 's', '3', ':', '/', '/', 'b', '/'] ∧
    s3utilPrepareS3 (s3utilPrepareS3 [ 'b']) = s3utilPrepareS3 [ 'b'] :=
  ⟨prepare_paths_idempotent_amended.1 [ 's', '3', ':', '/', '/', 'b', '/'],
    prepare_paths_idempotent_amended.2.2 [ 'b'] (by decide)⟩

end Fsconnectors
